import Mathlib

/-!
# Verification of the whoami HTTP test service core

Shallow embedding of the core components of the `whoami` Go service:
the content generator (`writeContent`, `CHARSET`), the pooled buffer
(`PooledBuffer`, `GetPooledBuffer`, `PooledBuffer.Close`), the health
state handler (`healthHandler`), the data handler size computation
(`dataHandler`), and the request metrics middleware
(`onHandleRequestStart` / `onHandleRequestFinish` atomic operations).

Buffers (`bytes.Buffer`) are modelled as `List Char` of their byte
contents (every byte written by the generator is a single-byte ASCII
character). Go `int64` arithmetic is modelled as `Int` with an explicit
wrap into the signed 64-bit range where overflow matters.
-/

/-- The generator character set, from `const CHARSET = "-ABCDEFGHIJKLMNOPQRSTUVWXYZ"`. -/
def CHARSET : List Char := "-ABCDEFGHIJKLMNOPQRSTUVWXYZ".toList

/-- Embedding of `writeContent(w byteRuneWriter, length int64)`:
```
if length <= 0 { return }
w.WriteRune('|')
for i := 1; i < (int(length) - 1); i++ { w.WriteByte(CHARSET[i%len(CHARSET)]) }
if length > 1 { w.WriteRune('|') }
```
The writer `w` is the buffer being appended to; `'|'` is one UTF-8 byte,
and the loop body appends `CHARSET[i % 27]` for `i = 1 .. length-2`. -/
def writeContent (buf : List Char) (length : Int) : List Char :=
  if length ≤ 0 then buf
  else
    let buf1 := buf ++ ['|']
    let buf2 := buf1 ++ (List.range' 1 (length - 2).toNat).map
      (fun i => CHARSET.getD (i % CHARSET.length) '-')
    if 1 < length then buf2 ++ ['|'] else buf2

/-- Embedding of `fillContent(length int64)`: write into a fresh empty buffer. -/
def fillContent (length : Int) : List Char :=
  writeContent [] length

example : fillContent 10 = "|ABCDEFGH|".toList := by decide
example : fillContent 2 = ['|', '|'] := by decide
example : fillContent 1 = ['|'] := by decide
example : fillContent 0 = [] := by decide
example : (fillContent 30).length = 30 := by decide
example : fillContent 30 = "|ABCDEFGHIJKLMNOPQRSTUVWXYZ-A|".toList := by decide

/-! ## Buffer pool (`buffer_pool.go`)

`sync.Pool` is modelled as the list of currently pooled `PooledBuffer`
instances; `Get` on an empty pool runs the `New` factory
`new(PooledBuffer)` (an empty buffer), otherwise it hands out a pooled
instance. The `bufferPoolProfile` is the `dummyProfile` no-op. -/

/-- `PooledBuffer` embeds `bytes.Buffer`; we model the byte contents. -/
structure PooledBuffer where
  data : List Char
deriving DecidableEq

/-- `bytes.Buffer.Reset`: logical truncation to zero length. -/
def PooledBuffer.Reset (_b : PooledBuffer) : PooledBuffer :=
  { data := [] }

/-- `Buffer.Len()`: number of bytes held. -/
def PooledBuffer.Len (b : PooledBuffer) : Nat :=
  b.data.length

/-- The `sync.Pool` of released buffers. -/
structure BufferPool where
  items : List PooledBuffer
deriving DecidableEq

/-- `dummyProfile.Add`: a no-op. -/
def dummyProfileAdd (_v : PooledBuffer) (_skip : Int) : Unit := ()

/-- `dummyProfile.Remove`: a no-op. -/
def dummyProfileRemove (_v : PooledBuffer) : Unit := ()

/-- Embedding of `GetPooledBuffer()`: `bufferPool.Get()` returns a pooled
instance when one is available, else the `New` factory's fresh empty
buffer; `bufferPoolProfile.Add` is the no-op `dummyProfile`. -/
def GetPooledBuffer (pool : BufferPool) : PooledBuffer × BufferPool :=
  match pool.items with
  | [] =>
    let b : PooledBuffer := { data := [] }
    let _ := dummyProfileAdd b 1
    (b, { items := [] })
  | b :: rest =>
    let _ := dummyProfileAdd b 1
    (b, { items := rest })

/-- Embedding of `PooledBuffer.Close()`: `b.Reset()`, the no-op
`bufferPoolProfile.Remove(b)`, then `bufferPool.Put(b)`. -/
def PooledBuffer.Close (b : PooledBuffer) (pool : BufferPool) : BufferPool :=
  let b1 := b.Reset
  let _ := dummyProfileRemove b1
  { items := b1 :: pool.items }

/-- Embedding of `fillContentPooled(length int64)`: acquire from the pool,
write the generated content into the acquired buffer. -/
def fillContentPooled (pool : BufferPool) (length : Int) : PooledBuffer × BufferPool :=
  let (b, pool1) := GetPooledBuffer pool
  ({ data := writeContent b.data length }, pool1)

/-- Every buffer currently in the pool is empty.  `sync.Pool.Get` may hand
out any pooled instance (or drop instances arbitrarily), so facts about an
acquired buffer are stated through this invariant over all pooled items. -/
def BufferPool.allEmpty (pool : BufferPool) : Prop :=
  ∀ b ∈ pool.items, b.data = []

instance (pool : BufferPool) : Decidable pool.allEmpty := by
  unfold BufferPool.allEmpty
  infer_instance

/-! ## Health state (`app.go`: `healthState`, `healthHandler`) -/

/-- `type healthState struct { StatusCode int }`. -/
structure healthState where
  StatusCode : Int
deriving DecidableEq

/-- `var currentHealthState = healthState{http.StatusOK}`. -/
def initialHealthState : healthState :=
  { StatusCode := 200 }

/-- The observable outcome of one `healthHandler` call. -/
inductive HealthResponse where
  /-- Non-POST path: `w.WriteHeader(currentHealthState.StatusCode)`. -/
  | statusLine (code : Int)
  /-- POST path, body decoded: state updated, implicit 200 response. -/
  | updated
  /-- POST path, decode error: `http.Error(w, ..., http.StatusBadRequest)`. -/
  | badRequest
deriving DecidableEq

/-- Embedding of `healthHandler`.  `isPost` is `req.Method == http.MethodPost`;
`body` is the outcome of `json.NewDecoder(req.Body).Decode(&statusCode)`
(`some code` on success, `none` on decode error).  Returns the health state
after the call together with the response. -/
def healthHandler (isPost : Bool) (body : Option Int) (s : healthState) :
    healthState × HealthResponse :=
  if isPost then
    match body with
    | none => (s, .badRequest)
    | some statusCode => ({ StatusCode := statusCode }, .updated)
  else
    (s, .statusLine s.StatusCode)

/-! ## Data handler size computation (`app.go`: units, `dataHandler`) -/

/-- `KB int64 = 1 << 10`. -/
def KB : Int := 2 ^ 10

/-- `MB = 1 << 20`. -/
def MB : Int := 2 ^ 20

/-- `GB = 1 << 30`. -/
def GB : Int := 2 ^ 30

/-- `TB = 1 << 40`. -/
def TB : Int := 2 ^ 40

/-- Wrap an integer into the signed 64-bit range, modelling Go `int64`
overflow on multiplication. -/
def wrap64 (x : Int) : Int :=
  (x + 2 ^ 63) % 2 ^ 64 - 2 ^ 63

/-- `strings.ToLower`, character by character (`Char.toLower` lowercases
the basic latin letters, which is all the unit switch distinguishes). -/
def goToLower (s : String) : String :=
  String.mk (s.data.map Char.toLower)

/-- The size computation of `dataHandler`:
```
size, err := strconv.ParseInt(queryParams.Get("size"), 10, 64)
if err != nil { size = 1 }
if size < 0 { size = 0 }
switch strings.ToLower(unit) {
case "kb": size *= KB
case "mb": size *= MB
case "gb": size *= GB
case "tb": size *= TB
}
```
`sizeParam` is the `ParseInt` outcome (`none` for a missing, malformed or
out-of-range parameter); the multiplications are wrapping `int64`. -/
def computeSize (sizeParam : Option Int) (unit : String) : Int :=
  let size : Int := match sizeParam with | none => 1 | some s => s
  let size1 : Int := if size < 0 then 0 else size
  if goToLower unit = "kb" then wrap64 (size1 * KB)
  else if goToLower unit = "mb" then wrap64 (size1 * MB)
  else if goToLower unit = "gb" then wrap64 (size1 * GB)
  else if goToLower unit = "tb" then wrap64 (size1 * TB)
  else size1

/-- Embedding of the content-producing part of `dataHandler`: parse and
scale the size, then `fillContentPooled(size)`.  Returns the bytes of the
buffer served to the client. -/
def dataHandler (sizeParam : Option Int) (unit : String) (pool : BufferPool) :
    PooledBuffer × BufferPool :=
  let size : Int := match sizeParam with | none => 1 | some s => s
  let size1 : Int := if size < 0 then 0 else size
  let size2 : Int :=
    if goToLower unit = "kb" then wrap64 (size1 * KB)
    else if goToLower unit = "mb" then wrap64 (size1 * MB)
    else if goToLower unit = "gb" then wrap64 (size1 * GB)
    else if goToLower unit = "tb" then wrap64 (size1 * TB)
    else size1
  fillContentPooled pool size2

/-! ## Request metrics middleware

`metricsMiddleware.ServeHTTP` runs `onHandleRequestStart`, the handler,
then (deferred) `onHandleRequestFinish`:
```
func (m metricsMiddleware) onHandleRequestStart() {
    count := concurrentRequestCount.Add(1)
    totalRequestCount.Add(1)
    maxConcurrentRequestCount.Update(count)
}
func (m metricsMiddleware) onHandleRequestFinish() {
    concurrentRequestCount.Add(-1)
}
```
The counter types `expvarInt` / `expvarMaxInt` are declared elsewhere in
the repository; their operations are modelled from the spec below.  Each
counter operation is a single atomic step, so a concurrent execution is an
interleaving: a list of atomic events applied in sequence to the shared
counter state. -/

/-- Modelled from the spec: `expvarInt.Add(delta)` — the missing
`expvarInt` counter type "atomically increments" / "atomically
decrements" and `OnStart` "returns the new in-flight value"; one atomic
fetch-add returning the new value. -/
def expvarIntAdd (v delta : Int) : Int := v + delta

/-- Modelled from the spec: `expvarMaxInt.Update(candidate)` — the missing
`expvarMaxInt` type "atomically raises the stored maximum to `candidate`
if and only if `candidate` exceeds the current stored maximum". -/
def expvarMaxUpdate (m candidate : Int) : Int :=
  if m < candidate then candidate else m

/-- The three metric counters (`totalRequestCount`,
`concurrentRequestCount`, `maxConcurrentRequestCount`). -/
structure Metrics where
  totalRequestCount : Int
  concurrentRequestCount : Int
  maxConcurrentRequestCount : Int
deriving DecidableEq

/-- Zero-initialized counters at process start. -/
def Metrics.init : Metrics := ⟨0, 0, 0⟩

/-- One atomic counter operation, the granularity at which concurrent
middleware executions interleave. -/
inductive MetricEv where
  /-- `concurrentRequestCount.Add(1)`, the first step of `onHandleRequestStart`. -/
  | incConcurrent
  /-- `totalRequestCount.Add(1)`. -/
  | incTotal
  /-- `maxConcurrentRequestCount.Update(count)` with the caller's saved `count`. -/
  | updateMax (count : Int)
  /-- `concurrentRequestCount.Add(-1)`, the body of `onHandleRequestFinish`. -/
  | decConcurrent
deriving DecidableEq

/-- Apply one atomic counter operation. -/
def stepMetric (s : Metrics) : MetricEv → Metrics
  | .incConcurrent =>
    { s with concurrentRequestCount := expvarIntAdd s.concurrentRequestCount 1 }
  | .incTotal =>
    { s with totalRequestCount := expvarIntAdd s.totalRequestCount 1 }
  | .updateMax c =>
    { s with maxConcurrentRequestCount := expvarMaxUpdate s.maxConcurrentRequestCount c }
  | .decConcurrent =>
    { s with concurrentRequestCount := expvarIntAdd s.concurrentRequestCount (-1) }

/-- Run an interleaving of atomic counter operations. -/
def runMetrics (s : Metrics) (tr : List MetricEv) : Metrics :=
  tr.foldl stepMetric s

/-- Number of `concurrentRequestCount.Add(1)` events (`onHandleRequestStart`
increments performed). -/
def countStarts : List MetricEv → Nat
  | [] => 0
  | .incConcurrent :: tr => countStarts tr + 1
  | _ :: tr => countStarts tr

/-- Number of `concurrentRequestCount.Add(-1)` events (`onHandleRequestFinish`
decrements performed). -/
def countFinishes : List MetricEv → Nat
  | [] => 0
  | .decConcurrent :: tr => countFinishes tr + 1
  | _ :: tr => countFinishes tr

/-- Number of `totalRequestCount.Add(1)` events. -/
def countTotalIncs : List MetricEv → Nat
  | [] => 0
  | .incTotal :: tr => countTotalIncs tr + 1
  | _ :: tr => countTotalIncs tr

/-- A trace is middleware-shaped when no prefix has more finish decrements
than start increments: `ServeHTTP` increments `concurrentRequestCount`
before the deferred `onHandleRequestFinish` can run, so each decrement is
preceded by its own matching increment. -/
def wfTrace (tr : List MetricEv) : Prop :=
  ∀ n : Nat, countFinishes (tr.take n) ≤ countStarts (tr.take n)

instance (tr : List MetricEv) : Decidable (wfTrace tr) := by
  unfold wfTrace
  have : (∀ n ≤ tr.length, countFinishes (tr.take n) ≤ countStarts (tr.take n)) ↔
      (∀ n : Nat, countFinishes (tr.take n) ≤ countStarts (tr.take n)) := by
    constructor
    · intro h n
      rcases le_or_lt n tr.length with hn | hn
      · exact h n hn
      · have heq : tr.take n = tr.take tr.length := by
          rw [List.take_of_length_le (le_of_lt hn), List.take_length]
        rw [heq]
        exact h tr.length le_rfl
    · intro h n _
      exact h n
  exact decidable_of_iff _ this

/-! ### Interleavings of `onHandleRequestStart` executions

For the peak-tracking claim the relevant interleavings are those of the
two-step sequence `count := concurrentRequestCount.Add(1); ...
maxConcurrentRequestCount.Update(count)` run by many concurrent callers.
A state carries the counter values plus the multiset of `count` values
already produced by an `Add(1)` whose `Update` has not yet run; an
`update` event picks any pending value (the scheduler's choice, by
index). -/

/-- State of an interleaved execution of `onHandleRequestStart` calls:
the in-flight counter, the stored maximum, and the `count` snapshots of
calls that have incremented but not yet run their `Update`. -/
structure StartState where
  concurrent : Int
  maxConcurrent : Int
  pending : List Int
deriving DecidableEq

/-- Counters at process start, no call in progress. -/
def StartState.init : StartState := ⟨0, 0, []⟩

/-- One scheduler step in an interleaving of `onHandleRequestStart` calls. -/
inductive StartEv where
  /-- Some caller runs `count := concurrentRequestCount.Add(1)`. -/
  | inc
  /-- The caller whose snapshot sits at index `i` of the pending list runs
  `maxConcurrentRequestCount.Update(count)`. -/
  | upd (i : Nat)
deriving DecidableEq

/-- Apply one scheduler step.  An `upd` with an out-of-range index names no
pending caller and changes nothing. -/
def stepStart (s : StartState) : StartEv → StartState
  | .inc =>
    { concurrent := expvarIntAdd s.concurrent 1
      maxConcurrent := s.maxConcurrent
      pending := s.pending ++ [expvarIntAdd s.concurrent 1] }
  | .upd i =>
    if h : i < s.pending.length then
      { concurrent := s.concurrent
        maxConcurrent := expvarMaxUpdate s.maxConcurrent (s.pending.get ⟨i, h⟩)
        pending := s.pending.eraseIdx i }
    else s

/-- Run an interleaving of `onHandleRequestStart` steps. -/
def runStart (s : StartState) (tr : List StartEv) : StartState :=
  tr.foldl stepStart s

/-- Number of `Add(1)` steps in an interleaving. -/
def countIncs : List StartEv → Nat
  | [] => 0
  | .inc :: tr => countIncs tr + 1
  | .upd _ :: tr => countIncs tr

example : computeSize none "" = 1 := by decide
example : computeSize none "KB" = 1024 := by decide
example : computeSize (some (-7)) "mb" = 0 := by decide
example : computeSize (some 3) "Gb" = 3 * 2 ^ 30 := by decide
example : computeSize (some 2) "parsec" = 2 := by decide
example : computeSize (some 8388608) "tb" = -(2 ^ 63) := by decide

/-! ## Content generator lemmas -/

/-- `writeContent` appends exactly `length.toNat` bytes for a non-negative
length. -/
theorem writeContent_length (buf : List Char) (L : Int) (hL : 0 ≤ L) :
    (writeContent buf L).length = buf.length + L.toNat := by
  unfold writeContent
  split
  · omega
  · split
    · simp only [List.length_append, List.length_map, List.length_range',
        List.length_cons, List.length_nil]
      omega
    · simp only [List.length_append, List.length_map, List.length_range',
        List.length_cons, List.length_nil]
      omega

/-- For lengths of at least two the generated content is an opening marker,
the cycled filler, and a closing marker. -/
theorem fillContent_eq_of_two_le (L : Int) (h2 : 2 ≤ L) :
    fillContent L = '|' :: ((List.range' 1 (L - 2).toNat).map
      (fun i => CHARSET.getD (i % CHARSET.length) '-')) ++ ['|'] := by
  unfold fillContent writeContent
  rw [if_neg (by omega), if_pos (by omega)]
  simp

/-- C1: for every non-negative length `L`, `writeContent` appends exactly
`L` bytes to the buffer; for `L ≥ 2` the first and last generated byte are
the boundary marker, for `L = 1` the output is a single marker, for
`L = 0` the buffer is unchanged, and for `L = 2` the output is exactly two
markers with no filler. -/
theorem writeContent_exact_length (L : Int) (hL : 0 ≤ L) :
    (∀ buf : List Char, (writeContent buf L).length = buf.length + L.toNat) ∧
    (2 ≤ L → (fillContent L).head? = some '|' ∧ (fillContent L).getLast? = some '|') ∧
    (L = 1 → fillContent L = ['|']) ∧
    (L = 0 → ∀ buf : List Char, writeContent buf L = buf) ∧
    (L = 2 → fillContent L = ['|', '|']) := by
  refine ⟨fun buf => writeContent_length buf L hL, fun h2 => ?_, ?_, ?_, ?_⟩
  · rw [fillContent_eq_of_two_le L h2]
    refine ⟨by simp, ?_⟩
    rw [List.getLast?_concat]
  · intro h1
    subst h1
    decide
  · intro h0
    subst h0
    intro buf
    simp [writeContent]
  · intro h2'
    subst h2'
    decide

theorem writeContent_exact_length_witness :
    (fillContent 5).length = 5 ∧ (fillContent 5).head? = some '|' := by
  have h := writeContent_exact_length 5 (by decide)
  refine ⟨?_, (h.2.1 (by decide)).1⟩
  have h1 := h.1 []
  simpa [fillContent] using h1

/-- C2: the character set is the separator followed by the 26 uppercase
latin letters (27 symbols); every filler position `i` (with
`1 ≤ i ≤ L - 2`) of the generated content holds `CHARSET[i % 27]`; and
length 10 produces exactly the ten bytes of the scenario. -/
theorem writeContent_charset_cycle :
    CHARSET.length = 27 ∧
    CHARSET = '-' :: "ABCDEFGHIJKLMNOPQRSTUVWXYZ".toList ∧
    (∀ L : Int, 2 < L → ∀ i : Nat, 1 ≤ i → (i : Int) ≤ L - 2 →
      (fillContent L).getD i ' ' = CHARSET.getD (i % 27) ' ') ∧
    fillContent 10 = "|ABCDEFGH|".toList := by
  refine ⟨by decide, by decide, ?_, by decide⟩
  intro L hL i hi1 hi2
  rw [fillContent_eq_of_two_le L (by omega)]
  obtain ⟨j, rfl⟩ : ∃ j, i = j + 1 := ⟨i - 1, by omega⟩
  have hj : j < ((List.range' 1 (L - 2).toNat).map
      (fun i => CHARSET.getD (i % CHARSET.length) '-')).length := by
    simp only [List.length_map, List.length_range']
    omega
  have hj1 : j + 1 < ('|' :: (List.range' 1 (L - 2).toNat).map
      (fun i => CHARSET.getD (i % CHARSET.length) '-')).length := by
    simpa using hj
  rw [List.getD_append _ _ _ _ hj1, List.getD_cons_succ,
    List.getD_eq_getElem _ _ hj, List.getElem_map, List.getElem_range']
  have hlen : CHARSET.length = 27 := by decide
  have hmod : (j + 1) % 27 < CHARSET.length := by
    rw [hlen]
    exact Nat.mod_lt _ (by omega)
  rw [List.getD_eq_getElem _ _ hmod]
  have harg : (1 + 1 * j) % CHARSET.length = (j + 1) % 27 := by
    rw [hlen]
    congr 1
    omega
  have harg2 : (1 + 1 * j) % CHARSET.length < CHARSET.length := by
    rw [hlen] at *
    omega
  rw [List.getD_eq_getElem _ _ harg2]
  congr 1

theorem writeContent_charset_cycle_witness :
    (fillContent 7).getD 3 ' ' = CHARSET.getD (3 % 27) ' ' :=
  writeContent_charset_cycle.2.2.1 7 (by decide) 3 (by decide) (by decide)

/-! ## Health state theorems -/

/-- C3: writing any integer health code (a POST with a well-formed JSON
integer body) and then reading with no intervening writer surfaces exactly
that code, unvalidated and verbatim, as the status response — for every
integer, including values outside the conventional HTTP range such as 999
or 503. -/
theorem healthHandler_write_then_read (code : Int) (s : healthState) (body2 : Option Int) :
    (healthHandler true (some code) s).2 = .updated ∧
    (healthHandler false body2 (healthHandler true (some code) s).1).2
      = .statusLine code ∧
    (healthHandler false body2 (healthHandler true (some code) s).1).1
      = (healthHandler true (some code) s).1 := by
  simp [healthHandler]

/-- C8: a POST whose body does not decode as a JSON integer is answered
with 400 Bad Request and leaves the stored health state unchanged — the
write fails before reaching the state. -/
theorem healthHandler_decode_error_atomic (s : healthState) :
    healthHandler true none s = (s, .badRequest) := by
  simp [healthHandler]

/-! ## Buffer pool theorems -/

/-- A buffer acquired from a pool whose members are all empty is empty. -/
theorem GetPooledBuffer_data_empty (p : BufferPool) (h : p.allEmpty) :
    (GetPooledBuffer p).1.data = [] := by
  rcases p with ⟨items⟩
  cases items with
  | nil => rfl
  | cons b rest => exact h b (List.mem_cons_self b rest)

/-- Acquisition leaves the rest of the pool all-empty. -/
theorem GetPooledBuffer_rest_allEmpty (p : BufferPool) (h : p.allEmpty) :
    (GetPooledBuffer p).2.allEmpty := by
  rcases p with ⟨items⟩
  cases items with
  | nil => intro b hb; simp [GetPooledBuffer] at hb
  | cons b rest =>
    intro c hc
    exact h c (List.mem_cons_of_mem b hc)

/-- Releasing any buffer preserves the all-empty pool invariant: the
buffer is reset before it re-enters the pool. -/
theorem PooledBuffer_Close_allEmpty (b : PooledBuffer) (p : BufferPool)
    (h : p.allEmpty) : (b.Close p).allEmpty := by
  intro c hc
  rcases List.mem_cons.mp hc with rfl | hmem
  · rfl
  · exact h c hmem

/-- C6: `PooledBuffer.Close` resets the buffer's length to zero before it
re-enters the pool, so acquiring from an all-empty pool observes length 0,
releasing preserves the invariant, and the full sequence acquire → fill
with `N` bytes → release → acquire again observes a buffer of length 0. -/
theorem pooledBuffer_close_resets (p : BufferPool) (b : PooledBuffer) (N : Int)
    (hp : p.allEmpty) :
    b.Reset.Len = 0 ∧
    (b.Close p).allEmpty ∧
    (GetPooledBuffer p).1.Len = 0 ∧
    (GetPooledBuffer
      ((fillContentPooled p N).1.Close (fillContentPooled p N).2)).1.Len = 0 := by
  refine ⟨rfl, PooledBuffer_Close_allEmpty b p hp, ?_, ?_⟩
  · show (GetPooledBuffer p).1.data.length = 0
    rw [GetPooledBuffer_data_empty p hp]
    rfl
  · have hrest : (fillContentPooled p N).2.allEmpty := by
      have : (fillContentPooled p N).2 = (GetPooledBuffer p).2 := by
        unfold fillContentPooled
        rcases hgp : GetPooledBuffer p with ⟨b1, q1⟩
        simp
      rw [this]
      exact GetPooledBuffer_rest_allEmpty p hp
    have hclosed := PooledBuffer_Close_allEmpty (fillContentPooled p N).1
      (fillContentPooled p N).2 hrest
    show (GetPooledBuffer _).1.data.length = 0
    rw [GetPooledBuffer_data_empty _ hclosed]
    rfl

theorem pooledBuffer_close_resets_witness :
    (GetPooledBuffer
      ((fillContentPooled ⟨[]⟩ 6).1.Close (fillContentPooled ⟨[]⟩ 6).2)).1.Len = 0 :=
  (pooledBuffer_close_resets ⟨[]⟩ ⟨"junk".toList⟩ 6 (by decide)).2.2.2

/-- C9: the generator is deterministic — two fills with the same length on
freshly acquired buffers (from any two all-empty pools) produce
byte-identical contents; the output depends on nothing but the length. -/
theorem fillContentPooled_deterministic (L : Int) (p1 p2 : BufferPool)
    (h1 : p1.allEmpty) (h2 : p2.allEmpty) :
    (fillContentPooled p1 L).1.data = (fillContentPooled p2 L).1.data ∧
    (fillContentPooled p1 L).1.data = fillContent L := by
  have key : ∀ p : BufferPool, p.allEmpty →
      (fillContentPooled p L).1.data = fillContent L := by
    intro p hp
    unfold fillContentPooled
    rcases hgp : GetPooledBuffer p with ⟨b, q⟩
    have hb : b.data = [] := by
      have := GetPooledBuffer_data_empty p hp
      rw [hgp] at this
      exact this
    simp [hb, fillContent]
  exact ⟨(key p1 h1).trans (key p2 h2).symm, key p1 h1⟩

theorem fillContentPooled_deterministic_witness :
    (fillContentPooled ⟨[⟨[]⟩, ⟨[]⟩]⟩ 4).1.data = (fillContentPooled ⟨[]⟩ 4).1.data :=
  (fillContentPooled_deterministic 4 ⟨[⟨[]⟩, ⟨[]⟩]⟩ ⟨[]⟩ (by decide) (by decide)).1

/-! ## Data handler theorems -/

/-- `wrap64` is the identity on values already in the signed 64-bit range. -/
theorem wrap64_eq_of_lt (x : Int) (h1 : -(2 ^ 63) ≤ x) (h2 : x < 2 ^ 63) :
    wrap64 x = x := by
  unfold wrap64
  omega

/-- C7: a missing or malformed size defaults to 1 byte; a negative parsed
size is clamped to 0; the unit suffix is matched case-insensitively and
multiplies the clamped size by the 1024-based multiplier (shown here for
products in the `int64` range); any other unit leaves the size unscaled;
and the data handler invokes the generator with exactly that final byte
count. -/
theorem dataHandler_size_params :
    (∀ unit : String, computeSize none unit = computeSize (some 1) unit) ∧
    (∀ s : Int, s < 0 → ∀ unit : String,
      computeSize (some s) unit = computeSize (some 0) unit) ∧
    (∀ s : Int, 0 ≤ s → s * KB < 2 ^ 63 → ∀ unit : String,
      goToLower unit = "kb" → computeSize (some s) unit = s * 1024) ∧
    (∀ s : Int, 0 ≤ s → s * MB < 2 ^ 63 → ∀ unit : String,
      goToLower unit = "mb" → computeSize (some s) unit = s * 1024 ^ 2) ∧
    (∀ s : Int, 0 ≤ s → s * GB < 2 ^ 63 → ∀ unit : String,
      goToLower unit = "gb" → computeSize (some s) unit = s * 1024 ^ 3) ∧
    (∀ s : Int, 0 ≤ s → s * TB < 2 ^ 63 → ∀ unit : String,
      goToLower unit = "tb" → computeSize (some s) unit = s * 1024 ^ 4) ∧
    (∀ s : Int, 0 ≤ s → ∀ unit : String, goToLower unit ≠ "kb" →
      goToLower unit ≠ "mb" → goToLower unit ≠ "gb" → goToLower unit ≠ "tb" →
      computeSize (some s) unit = s) ∧
    (∀ (p : Option Int) (unit : String) (pool : BufferPool),
      dataHandler p unit pool = fillContentPooled pool (computeSize p unit)) := by
  refine ⟨fun unit => rfl, ?_, ?_, ?_, ?_, ?_, ?_, fun p unit pool => rfl⟩
  · intro s hs unit
    have hcl : (if s < 0 then (0 : Int) else s) = 0 := if_pos hs
    simp only [computeSize, hcl]
    norm_num
  · intro s hs hlt unit hu
    have hcl : (if s < 0 then (0 : Int) else s) = s := if_neg (by omega)
    simp [computeSize, hu, hcl]
    rw [wrap64_eq_of_lt _ (le_trans (by norm_num)
      (mul_nonneg hs (by norm_num [KB]))) hlt]
    norm_num [KB]
  · intro s hs hlt unit hu
    have hcl : (if s < 0 then (0 : Int) else s) = s := if_neg (by omega)
    simp [computeSize, hu, hcl]
    rw [wrap64_eq_of_lt _ (le_trans (by norm_num)
      (mul_nonneg hs (by norm_num [MB]))) hlt]
    norm_num [MB]
  · intro s hs hlt unit hu
    have hcl : (if s < 0 then (0 : Int) else s) = s := if_neg (by omega)
    simp [computeSize, hu, hcl]
    rw [wrap64_eq_of_lt _ (le_trans (by norm_num)
      (mul_nonneg hs (by norm_num [GB]))) hlt]
    norm_num [GB]
  · intro s hs hlt unit hu
    have hcl : (if s < 0 then (0 : Int) else s) = s := if_neg (by omega)
    simp [computeSize, hu, hcl]
    rw [wrap64_eq_of_lt _ (le_trans (by norm_num)
      (mul_nonneg hs (by norm_num [TB]))) hlt]
    norm_num [TB]
  · intro s hs unit hukb humb hugb hutb
    have hcl : (if s < 0 then (0 : Int) else s) = s := if_neg (by omega)
    simp only [computeSize, hcl]
    rw [if_neg hukb, if_neg humb, if_neg hugb, if_neg hutb]

theorem dataHandler_size_params_witness :
    computeSize (some 5) "KB" = 5 * 1024 ∧
    computeSize (some (-3)) "x" = computeSize (some 0) "x" ∧
    computeSize (some 7) "x" = 7 :=
  ⟨dataHandler_size_params.2.2.1 5 (by decide) (by decide) "KB" (by decide),
   dataHandler_size_params.2.1 (-3) (by decide) "x",
   dataHandler_size_params.2.2.2.2.2.2.1 7 (by decide) "x"
     (by decide) (by decide) (by decide) (by decide)⟩

/-- C10: unit scaling is wrapping 64-bit signed arithmetic, so a large
size with a large unit wraps — `size=8388608, unit=tb` computes
`2^23 * 2^40 = 2^63`, which wraps to `-2^63 ≤ 0` — and for every
non-positive computed length `writeContent` writes zero bytes and returns
normally, so the data path is total and serves an empty payload there. -/
theorem dataHandler_wrapping_total :
    (∀ (buf : List Char) (L : Int), L ≤ 0 → writeContent buf L = buf) ∧
    computeSize (some 8388608) "tb" = -(2 ^ 63) ∧
    computeSize (some 8388608) "tb" ≤ 0 ∧
    (∀ (p : Option Int) (unit : String) (pool : BufferPool), pool.allEmpty →
      computeSize p unit ≤ 0 → (dataHandler p unit pool).1.data = []) ∧
    (dataHandler (some 8388608) "tb" ⟨[]⟩).1.data = [] := by
  have hzero : ∀ (buf : List Char) (L : Int), L ≤ 0 → writeContent buf L = buf := by
    intro buf L hL
    unfold writeContent
    rw [if_pos hL]
  refine ⟨hzero, by decide, by decide, ?_, by decide⟩
  intro p unit pool hpool hle
  have hcomp : dataHandler p unit pool = fillContentPooled pool (computeSize p unit) := rfl
  rw [hcomp]
  unfold fillContentPooled
  rcases hgp : GetPooledBuffer pool with ⟨b, q⟩
  simp only
  rw [hzero _ _ hle]
  have hb := GetPooledBuffer_data_empty pool hpool
  rw [hgp] at hb
  exact hb

theorem dataHandler_wrapping_total_witness :
    writeContent ['a'] (-3) = ['a'] ∧
    (dataHandler (some 8388608) "tb" ⟨[⟨[]⟩]⟩).1.data = [] :=
  ⟨dataHandler_wrapping_total.1 ['a'] (-3) (by decide),
   dataHandler_wrapping_total.2.2.2.1 (some 8388608) "tb" ⟨[⟨[]⟩]⟩
     (by decide) (by decide)⟩

/-! ## Request metrics theorems -/

/-- Running a trace of atomic counter operations offsets the in-flight and
total counters by the corresponding event counts. -/
theorem runMetrics_counts (tr : List MetricEv) (s : Metrics) :
    (runMetrics s tr).concurrentRequestCount
      = s.concurrentRequestCount + countStarts tr - countFinishes tr ∧
    (runMetrics s tr).totalRequestCount
      = s.totalRequestCount + countTotalIncs tr := by
  induction tr generalizing s with
  | nil => simp [runMetrics, countStarts, countFinishes, countTotalIncs]
  | cons e rest ih =>
    have h := ih (stepMetric s e)
    cases e with
    | incConcurrent =>
      simp only [runMetrics, List.foldl_cons, stepMetric, expvarIntAdd,
        countStarts, countFinishes, countTotalIncs] at h ⊢
      omega
    | incTotal =>
      simp only [runMetrics, List.foldl_cons, stepMetric, expvarIntAdd,
        countStarts, countFinishes, countTotalIncs] at h ⊢
      omega
    | updateMax c =>
      simp only [runMetrics, List.foldl_cons, stepMetric, expvarIntAdd,
        countStarts, countFinishes, countTotalIncs] at h ⊢
      omega
    | decConcurrent =>
      simp only [runMetrics, List.foldl_cons, stepMetric, expvarIntAdd,
        countStarts, countFinishes, countTotalIncs] at h ⊢
      omega

/-- C4: under any interleaving of the atomic counter operations in which
no prefix has more finish decrements than start increments (as guaranteed
by the middleware, which increments before its deferred finish), the
in-flight counter equals the number of start increments performed minus
the finish decrements performed, is never negative at any point, and after
`K * M` matched start/finish pairs (K pairs from each of M callers) have
all completed, the in-flight counter is exactly 0 and the total counter
exactly `K * M`. -/
theorem metrics_inflight_invariant (tr : List MetricEv) (hwf : wfTrace tr) :
    (runMetrics Metrics.init tr).concurrentRequestCount
      = (countStarts tr : Int) - (countFinishes tr : Int) ∧
    (∀ n : Nat, 0 ≤ (runMetrics Metrics.init (tr.take n)).concurrentRequestCount) ∧
    (runMetrics Metrics.init tr).totalRequestCount = (countTotalIncs tr : Int) ∧
    (∀ K M : Nat, countStarts tr = K * M → countFinishes tr = K * M →
      countTotalIncs tr = K * M →
      (runMetrics Metrics.init tr).concurrentRequestCount = 0 ∧
      (runMetrics Metrics.init tr).totalRequestCount = ((K * M : Nat) : Int)) := by
  have hc := runMetrics_counts tr Metrics.init
  have hinit : Metrics.init.concurrentRequestCount = 0 ∧
      Metrics.init.totalRequestCount = 0 := ⟨rfl, rfl⟩
  refine ⟨by omega, ?_, by omega, ?_⟩
  · intro n
    have hcn := runMetrics_counts (tr.take n) Metrics.init
    have hwfn := hwf n
    omega
  · intro K M hstart hfin htot
    constructor
    · omega
    · omega

theorem metrics_inflight_invariant_witness :
    (runMetrics Metrics.init
      [MetricEv.incConcurrent, MetricEv.incTotal, MetricEv.updateMax 1,
       MetricEv.decConcurrent]).concurrentRequestCount = 0 ∧
    (runMetrics Metrics.init
      [MetricEv.incConcurrent, MetricEv.incTotal, MetricEv.updateMax 1,
       MetricEv.decConcurrent]).totalRequestCount = ((1 * 1 : Nat) : Int) :=
  (metrics_inflight_invariant
    [MetricEv.incConcurrent, MetricEv.incTotal, MetricEv.updateMax 1,
     MetricEv.decConcurrent] (by decide)).2.2.2 1 1 (by decide) (by decide) (by decide)

/-- `Update` never lowers the stored maximum. -/
theorem expvarMaxUpdate_ge_left (m c : Int) : m ≤ expvarMaxUpdate m c := by
  unfold expvarMaxUpdate
  split <;> omega

/-- After `Update(c)` the stored maximum is at least `c`. -/
theorem expvarMaxUpdate_ge_right (m c : Int) : c ≤ expvarMaxUpdate m c := by
  unfold expvarMaxUpdate
  split <;> omega

/-- One interleaving step never lowers the stored maximum. -/
theorem stepStart_max_mono (s : StartState) (e : StartEv) :
    s.maxConcurrent ≤ (stepStart s e).maxConcurrent := by
  cases e with
  | inc => exact le_refl _
  | upd i =>
    simp only [stepStart]
    split
    · exact expvarMaxUpdate_ge_left _ _
    · exact le_refl _

/-- Across any sequence of steps the stored maximum never decreases. -/
theorem runStart_max_mono (s : StartState) (tr : List StartEv) :
    s.maxConcurrent ≤ (runStart s tr).maxConcurrent := by
  induction tr generalizing s with
  | nil => exact le_refl _
  | cons e rest ih => exact le_trans (stepStart_max_mono s e) (ih (stepStart s e))

/-- Once a pending candidate has been passed to `Update`, the stored
maximum stays at least that candidate forever after. -/
theorem runStart_candidate_le (s : StartState) (i : Nat) (h : i < s.pending.length)
    (tr : List StartEv) :
    s.pending.get ⟨i, h⟩ ≤ (runStart (stepStart s (.upd i)) tr).maxConcurrent := by
  have h1 : s.pending.get ⟨i, h⟩ ≤ (stepStart s (.upd i)).maxConcurrent := by
    simp only [stepStart]
    rw [dif_pos h]
    exact expvarMaxUpdate_ge_right _ _
  exact le_trans h1 (runStart_max_mono _ tr)

/-- Membership survives erasing a position that holds a different value. -/
theorem mem_eraseIdx_of_get_ne : ∀ (l : List Int) (i : Nat) (h : i < l.length)
    (a : Int), a ∈ l → l.get ⟨i, h⟩ ≠ a → a ∈ l.eraseIdx i
  | [], _, h, _, _, _ => by simp at h
  | b :: t, 0, _, a, ha, hne => by
    rcases List.mem_cons.mp ha with rfl | hmem
    · exact absurd rfl hne
    · simpa [List.eraseIdx] using hmem
  | b :: t, j + 1, h, a, ha, hne => by
    rcases List.mem_cons.mp ha with rfl | hmem
    · simp [List.eraseIdx]
    · have hj : j < t.length := by simpa using h
      have hrec := mem_eraseIdx_of_get_ne t j hj a hmem hne
      simpa [List.eraseIdx] using List.mem_cons_of_mem b hrec

/-- Invariant of interleaved `onHandleRequestStart` executions: the stored
maximum and every pending snapshot are bounded by the in-flight counter,
and either some caller still holds the current in-flight value as its
pending snapshot or the stored maximum has already caught up with it. -/
def StartInv (s : StartState) : Prop :=
  s.maxConcurrent ≤ s.concurrent ∧
  (∀ c ∈ s.pending, c ≤ s.concurrent) ∧
  (s.concurrent ∈ s.pending ∨ s.maxConcurrent = s.concurrent)

/-- Each interleaving step preserves the invariant. -/
theorem stepStart_preserves_inv (s : StartState) (e : StartEv) (hs : StartInv s) :
    StartInv (stepStart s e) := by
  obtain ⟨h1, h2, h3⟩ := hs
  cases e with
  | inc =>
    refine ⟨?_, ?_, Or.inl ?_⟩
    · show s.maxConcurrent ≤ expvarIntAdd s.concurrent 1
      unfold expvarIntAdd
      omega
    · intro c hc
      show c ≤ expvarIntAdd s.concurrent 1
      rcases List.mem_append.mp hc with hmem | hmem
      · have := h2 c hmem
        unfold expvarIntAdd
        omega
      · rw [List.mem_singleton.mp hmem]
    · exact List.mem_append_right _ (List.mem_singleton.mpr rfl)
  | upd i =>
    simp only [stepStart]
    split
    · rename_i hlen
      have hcle : s.pending.get ⟨i, hlen⟩ ≤ s.concurrent :=
        h2 _ (s.pending.get_mem i hlen)
      refine ⟨?_, ?_, ?_⟩
      · show expvarMaxUpdate s.maxConcurrent (s.pending.get ⟨i, hlen⟩) ≤ s.concurrent
        unfold expvarMaxUpdate
        split <;> omega
      · intro x hx
        exact h2 x (List.mem_of_mem_eraseIdx hx)
      · rcases h3 with hmem | heq
        · by_cases hceq : s.pending.get ⟨i, hlen⟩ = s.concurrent
          · right
            show expvarMaxUpdate s.maxConcurrent (s.pending.get ⟨i, hlen⟩) = s.concurrent
            unfold expvarMaxUpdate
            split <;> omega
          · left
            exact mem_eraseIdx_of_get_ne s.pending i hlen s.concurrent hmem hceq
        · right
          show expvarMaxUpdate s.maxConcurrent (s.pending.get ⟨i, hlen⟩) = s.concurrent
          unfold expvarMaxUpdate
          split <;> omega
    · exact ⟨h1, h2, h3⟩

/-- Running any interleaving preserves the invariant. -/
theorem runStart_preserves_inv (s : StartState) (tr : List StartEv) (hs : StartInv s) :
    StartInv (runStart s tr) := by
  induction tr generalizing s with
  | nil => exact hs
  | cons e rest ih => exact ih (stepStart s e) (stepStart_preserves_inv s e hs)

/-- The in-flight counter after an interleaving of starts counts the
increments performed. -/
theorem runStart_concurrent (s : StartState) (tr : List StartEv) :
    (runStart s tr).concurrent = s.concurrent + countIncs tr := by
  induction tr generalizing s with
  | nil => simp [runStart, countIncs]
  | cons e rest ih =>
    have h := ih (stepStart s e)
    cases e with
    | inc =>
      simp only [runStart, List.foldl_cons, countIncs] at h ⊢
      rw [h]
      show expvarIntAdd s.concurrent 1 + _ = _
      unfold expvarIntAdd
      push_cast
      ring
    | upd i =>
      simp only [runStart, List.foldl_cons, countIncs] at h ⊢
      rw [h]
      congr 1
      simp only [stepStart]
      split <;> rfl

/-- C5: `Update(candidate)` raises the stored maximum if and only if the
candidate exceeds it; across any sequence of steps the stored maximum
never decreases; it stays at least every in-flight snapshot previously
passed to it; and over any complete interleaving of concurrent
`onHandleRequestStart` calls (every increment's `Update` performed, i.e.
no snapshot left pending) it equals the number of increments — the final
in-flight value, which is the historical peak since starts only raise the
in-flight count. -/
theorem updateMax_monotone_peak :
    (∀ m c : Int, expvarMaxUpdate m c = max m c ∧ (m < expvarMaxUpdate m c ↔ m < c)) ∧
    (∀ (s : StartState) (tr : List StartEv),
      s.maxConcurrent ≤ (runStart s tr).maxConcurrent) ∧
    (∀ (s : StartState) (i : Nat) (h : i < s.pending.length) (tr : List StartEv),
      s.pending.get ⟨i, h⟩ ≤ (runStart (stepStart s (.upd i)) tr).maxConcurrent) ∧
    (∀ tr : List StartEv, (runStart StartState.init tr).pending = [] →
      (runStart StartState.init tr).maxConcurrent = countIncs tr ∧
      (runStart StartState.init tr).concurrent = countIncs tr) := by
  refine ⟨?_, runStart_max_mono, runStart_candidate_le, ?_⟩
  · intro m c
    unfold expvarMaxUpdate
    rcases lt_or_le m c with h | h
    · rw [if_pos h, max_eq_right h.le]
      exact ⟨rfl, Iff.rfl⟩
    · rw [if_neg (not_lt.mpr h), max_eq_left h]
      omega
  · intro tr hpend
    have hinv : StartInv (runStart StartState.init tr) :=
      runStart_preserves_inv StartState.init tr
        ⟨le_refl 0, by intro c hc; simp [StartState.init] at hc, Or.inr rfl⟩
    obtain ⟨h1, h2, h3⟩ := hinv
    have hconc := runStart_concurrent StartState.init tr
    have hinit : StartState.init.concurrent = 0 := rfl
    rcases h3 with hmem | heq
    · rw [hpend] at hmem
      simp at hmem
    · refine ⟨?_, ?_⟩
      · rw [heq, hconc, hinit]
        ring
      · rw [hconc, hinit]
        ring

theorem updateMax_monotone_peak_witness :
    (runStart StartState.init
        [StartEv.inc, StartEv.inc, StartEv.upd 1, StartEv.upd 0]).maxConcurrent
      = countIncs [StartEv.inc, StartEv.inc, StartEv.upd 1, StartEv.upd 0] ∧
    (1 : Int) ≤ (runStart (stepStart ⟨1, 0, [1]⟩ (StartEv.upd 0)) []).maxConcurrent :=
  ⟨(updateMax_monotone_peak.2.2.2
      [StartEv.inc, StartEv.inc, StartEv.upd 1, StartEv.upd 0] (by decide)).1,
   updateMax_monotone_peak.2.2.1 ⟨1, 0, [1]⟩ 0 (by decide) []⟩
